import Mathlib

/-!
Verification of the kniffel (Yahtzee-style) scoring engine.

The definitions below are a shallow embedding of `src/main.rs`:
`DieRoll`, `DiceCounts` (the face tally), `PotentialValues` (the
per-category achievable values), and `PlayerState` (the score card).
Machine integers (`u16` in the source) are modelled as `Nat`; in the
dice-evaluation pipeline every intermediate value is at most 50, far
below `2^16`, so overflow cannot occur there.  In `PlayerState.score`
and `Score.total`, where the summed values are caller-supplied, the
`u16` wrap-around is modelled explicitly with `% 65536`.
-/

/-- A die face, `DieRoll` in the source (discriminants 1..6). -/
inductive DieRoll : Type
  | one
  | two
  | three
  | four
  | five
  | six
deriving DecidableEq, Fintype, Repr

/-- The numeric value of a face: the Rust enum discriminant (`die as u16`). -/
def DieRoll.val : DieRoll → Nat
  | .one => 1
  | .two => 2
  | .three => 3
  | .four => 4
  | .five => 5
  | .six => 6

/-- The constant `DIE_ROLLS: [DieRoll; 6]`. -/
def DIE_ROLLS : List DieRoll :=
  [.one, .two, .three, .four, .five, .six]

/-- The constant `SMALL_STRAIGHTS: [[DieRoll; 4]; 3]`. -/
def SMALL_STRAIGHTS : List (List DieRoll) :=
  [[.one, .two, .three, .four],
   [.two, .three, .four, .five],
   [.three, .four, .five, .six]]

/-- The constant `LARGE_STRAIGHTS: [[DieRoll; 5]; 2]`. -/
def LARGE_STRAIGHTS : List (List DieRoll) :=
  [[.one, .two, .three, .four, .five],
   [.two, .three, .four, .five, .six]]

/-- The face tally, `struct DiceCounts` (six `u16` counters). -/
structure DiceCounts : Type where
  ones : Nat
  twos : Nat
  threes : Nat
  fours : Nat
  fives : Nat
  sixes : Nat
deriving DecidableEq, Repr

/-- The `Index<DieRoll>` impl for `DiceCounts` (`self[die]`). -/
def DiceCounts.get (c : DiceCounts) : DieRoll → Nat
  | .one => c.ones
  | .two => c.twos
  | .three => c.threes
  | .four => c.fours
  | .five => c.fives
  | .six => c.sixes

/-- One iteration of the counting loop in `DiceCounts::new`:
increment the counter matching `die`. -/
def DiceCounts.bump (c : DiceCounts) : DieRoll → DiceCounts
  | .one => { c with ones := c.ones + 1 }
  | .two => { c with twos := c.twos + 1 }
  | .three => { c with threes := c.threes + 1 }
  | .four => { c with fours := c.fours + 1 }
  | .five => { c with fives := c.fives + 1 }
  | .six => { c with sixes := c.sixes + 1 }

/-- `DiceCounts::new`: start from all-zero counters and count each die.
The source takes `[DieRoll; 5]`; we take a list so that hands are the
length-5 lists. -/
def DiceCounts.new (dice : List DieRoll) : DiceCounts :=
  dice.foldl DiceCounts.bump ⟨0, 0, 0, 0, 0, 0⟩

/-- `DiceCounts::sum`: `DIE_ROLLS.map(|die| self[die] * (die as u16)).iter().sum()`. -/
def DiceCounts.sum (c : DiceCounts) : Nat :=
  (DIE_ROLLS.map fun die => c.get die * die.val).sum

/-- `DiceCounts::has_tuple(n)`: the loop returns true as soon as some
face's count is `>= n`, i.e. it is `any` over `DIE_ROLLS`. -/
def DiceCounts.has_tuple (c : DiceCounts) (n : Nat) : Bool :=
  DIE_ROLLS.any fun die => n ≤ c.get die

/-- `DiceCounts::has_fullhouse`: one pass over `DIE_ROLLS` maintaining
the two flags `has_pair` and `has_triple`, then their conjunction. -/
def DiceCounts.has_fullhouse (c : DiceCounts) : Bool :=
  let flags := DIE_ROLLS.foldl
    (fun (st : Bool × Bool) die =>
      (st.1 || decide (c.get die = 2), st.2 || decide (c.get die = 3)))
    (false, false)
  flags.1 && flags.2

/-- `DiceCounts::has_straight`: some straight in the list has all of its
faces present (`self[die] > 0`). -/
def DiceCounts.has_straight (c : DiceCounts) (straights : List (List DieRoll)) : Bool :=
  straights.any fun straight => straight.all fun die => 0 < c.get die

/-- `DiceCounts::has_small_straight`. -/
def DiceCounts.has_small_straight (c : DiceCounts) : Bool :=
  c.has_straight SMALL_STRAIGHTS

/-- `DiceCounts::has_large_straight`. -/
def DiceCounts.has_large_straight (c : DiceCounts) : Bool :=
  c.has_straight LARGE_STRAIGHTS

/-- `DiceCounts::times_die_values`: each counter multiplied by its face value. -/
def DiceCounts.times_die_values (c : DiceCounts) : DiceCounts where
  ones := c.ones * 1
  twos := c.twos * 2
  threes := c.threes * 3
  fours := c.fours * 4
  fives := c.fives * 5
  sixes := c.sixes * 6

/-- A scoring category, `enum Combination`. -/
inductive Combination : Type
  | upper (number : DieRoll)
  | triple
  | quadruple
  | quintuple
  | smallStraight
  | largeStraight
  | chance
  | fullHouse
deriving DecidableEq, Fintype, Repr

/-- The constant `LOWER_COMBINATIONS: [Combination; 7]`. -/
def LOWER_COMBINATIONS : List Combination :=
  [.triple, .quadruple, .smallStraight, .largeStraight, .fullHouse, .quintuple, .chance]

/-- Whether a combination is an `Upper(_)` variant (the first arm of the
match in `PlayerState::score`). -/
def Combination.isUpper : Combination → Bool
  | .upper _ => true
  | _ => false

/-- `struct PotentialValues`: the achievable value of each category for one
tally.  The upper values are stored as a `DiceCounts` (already weighted). -/
structure PotentialValues : Type where
  upper : DiceCounts
  triple : Nat
  quadruple : Nat
  quintuple : Nat
  small_straight : Nat
  large_straight : Nat
  full_house : Nat
  chance : Nat
deriving Repr

/-- `PotentialValues::new`. -/
def PotentialValues.new (counts : DiceCounts) : PotentialValues where
  upper := counts.times_die_values
  triple := if counts.has_tuple 3 then counts.sum else 0
  quadruple := if counts.has_tuple 4 then counts.sum else 0
  quintuple := if counts.has_tuple 5 then 50 else 0
  chance := counts.sum
  small_straight := if counts.has_small_straight then 30 else 0
  large_straight := if counts.has_large_straight then 40 else 0
  full_house := if counts.has_fullhouse then 25 else 0

/-- The `Index<Combination>` impl for `PotentialValues` (`values[combination]`). -/
def PotentialValues.get (v : PotentialValues) : Combination → Nat
  | .upper number => v.upper.get number
  | .triple => v.triple
  | .quadruple => v.quadruple
  | .quintuple => v.quintuple
  | .smallStraight => v.small_straight
  | .largeStraight => v.large_straight
  | .chance => v.chance
  | .fullHouse => v.full_house

/-- `struct ValuedCombination`: a category together with its recorded value. -/
structure ValuedCombination : Type where
  combination : Combination
  value : Nat
deriving DecidableEq, Repr

/-- `struct Score` (three `u16` fields). -/
structure Score : Type where
  upper : Nat
  lower : Nat
  bonus : Nat
deriving DecidableEq, Repr

/-- `Score::total`: `self.upper + self.lower + self.bonus` in `u16`
arithmetic, i.e. modulo `2^16`. -/
def Score.total (s : Score) : Nat :=
  (s.upper + s.lower + s.bonus) % 65536

/-- `struct PlayerState`: the score card, a growable vector of recorded
(category, value) pairs. -/
structure PlayerState : Type where
  filled : List ValuedCombination
deriving DecidableEq, Repr

/-- `PlayerState::new`: an empty score card. -/
def PlayerState.new : PlayerState :=
  ⟨[]⟩

/-- `PlayerState::has_combination`: some recorded entry has this category. -/
def PlayerState.has_combination (s : PlayerState) (combination : Combination) : Bool :=
  s.filled.any fun vc => vc.combination == combination

/-- `PlayerState::record_value`: on an already-recorded category return the
error and leave the card unchanged, otherwise push the entry.  The Rust
method mutates `&mut self` and returns `Result<(), &str>`; here the state
is passed explicitly, so the result is the pair of the `Result` and the
(possibly updated) state. -/
def PlayerState.record_value (s : PlayerState) (vc : ValuedCombination) :
    Except String Unit × PlayerState :=
  if s.has_combination vc.combination then
    (Except.error "combination already recorded", s)
  else
    (Except.ok (), ⟨s.filled ++ [vc]⟩)

/-- The body of the accumulation loop in `PlayerState::score`: add the
entry's value to the upper or the lower running total (`u16` addition,
hence the `% 65536`). -/
def scoreStep (p : Nat × Nat) (vc : ValuedCombination) : Nat × Nat :=
  match vc.combination with
  | .upper _ => ((p.1 + vc.value) % 65536, p.2)
  | _ => (p.1, (p.2 + vc.value) % 65536)

/-- `PlayerState::score`: fold the recorded entries into upper and lower
totals, then award the bonus when the upper total reaches 63. -/
def PlayerState.score (s : PlayerState) : Score :=
  let acc := s.filled.foldl scoreStep (0, 0)
  { upper := acc.1
    lower := acc.2
    bonus := if 63 ≤ acc.1 then 35 else 0 }

/-- `PlayerState::is_done`:
`self.filled.len() >= DIE_ROLLS.len() + LOWER_COMBINATIONS.len()`. -/
def PlayerState.is_done (s : PlayerState) : Bool :=
  DIE_ROLLS.length + LOWER_COMBINATIONS.length ≤ s.filled.length

/-- The score-card states reachable from `PlayerState::new` by successful
`record_value` calls (the only mutation in the program). -/
inductive Reachable : PlayerState → Prop
  | new : Reachable PlayerState.new
  | record (s : PlayerState) (vc : ValuedCombination) (t : PlayerState) :
      Reachable s → s.record_value vc = (Except.ok (), t) → Reachable t

/-- A concrete score card whose upper entries total exactly 63
(30 + 25 + 8), used to exercise the bonus threshold. -/
def scoreCardA : PlayerState :=
  ⟨[⟨Combination.upper DieRoll.six, 30⟩, ⟨Combination.upper DieRoll.five, 25⟩,
    ⟨Combination.upper DieRoll.four, 8⟩, ⟨Combination.chance, 20⟩]⟩

/-- A concrete score card with a single recorded entry. -/
def scoreCardB : PlayerState :=
  ⟨[⟨Combination.chance, 20⟩]⟩

/-- A concrete score card with all 13 categories recorded. -/
def fullCard : PlayerState :=
  ⟨(DIE_ROLLS.map fun d => ⟨Combination.upper d, 0⟩) ++
    (LOWER_COMBINATIONS.map fun c => ⟨c, 0⟩)⟩

/-- A concrete hand of five dice. -/
def handA : List DieRoll :=
  [.one, .two, .three, .four, .six]

/-! ## Helper lemmas -/

lemma mem_DIE_ROLLS (d : DieRoll) : d ∈ DIE_ROLLS := by
  cases d <;> simp [DIE_ROLLS]

lemma has_tuple_iff (c : DiceCounts) (n : Nat) :
    c.has_tuple n = true ↔ ∃ d : DieRoll, n ≤ c.get d := by
  simp only [DiceCounts.has_tuple, List.any_eq_true, decide_eq_true_iff]
  constructor
  · rintro ⟨d, _, hd⟩
    exact ⟨d, hd⟩
  · rintro ⟨d, hd⟩
    exact ⟨d, mem_DIE_ROLLS d, hd⟩

lemma has_fullhouse_iff (c : DiceCounts) :
    c.has_fullhouse = true ↔
      (∃ d : DieRoll, c.get d = 2) ∧ (∃ d : DieRoll, c.get d = 3) := by
  simp only [DiceCounts.has_fullhouse, DIE_ROLLS, List.foldl_cons, List.foldl_nil,
    Bool.and_eq_true, Bool.or_eq_true, decide_eq_true_iff, Bool.false_or]
  constructor
  · rintro ⟨h2, h3⟩
    refine ⟨?_, ?_⟩
    · rcases h2 with ((((h | h) | h) | h) | h) | h <;> exact ⟨_, h⟩
    · rcases h3 with ((((h | h) | h) | h) | h) | h <;> exact ⟨_, h⟩
  · rintro ⟨⟨a, ha⟩, b, hb⟩
    constructor
    · cases a <;> tauto
    · cases b <;> tauto

lemma has_small_straight_iff (c : DiceCounts) :
    c.has_small_straight = true ↔
      (0 < c.get .one ∧ 0 < c.get .two ∧ 0 < c.get .three ∧ 0 < c.get .four) ∨
      (0 < c.get .two ∧ 0 < c.get .three ∧ 0 < c.get .four ∧ 0 < c.get .five) ∨
      (0 < c.get .three ∧ 0 < c.get .four ∧ 0 < c.get .five ∧ 0 < c.get .six) := by
  simp [DiceCounts.has_small_straight, DiceCounts.has_straight, SMALL_STRAIGHTS]

lemma has_large_straight_iff (c : DiceCounts) :
    c.has_large_straight = true ↔
      (0 < c.get .one ∧ 0 < c.get .two ∧ 0 < c.get .three ∧ 0 < c.get .four ∧
        0 < c.get .five) ∨
      (0 < c.get .two ∧ 0 < c.get .three ∧ 0 < c.get .four ∧ 0 < c.get .five ∧
        0 < c.get .six) := by
  simp [DiceCounts.has_large_straight, DiceCounts.has_straight, LARGE_STRAIGHTS]

lemma sum_bump (c : DiceCounts) (d : DieRoll) :
    (c.bump d).sum = c.sum + d.val := by
  cases d <;>
    simp [DiceCounts.bump, DiceCounts.sum, DIE_ROLLS, DieRoll.val, DiceCounts.get] <;>
    ring

lemma sum_foldl_bump (dice : List DieRoll) (c : DiceCounts) :
    (dice.foldl DiceCounts.bump c).sum = c.sum + (dice.map DieRoll.val).sum := by
  induction dice generalizing c with
  | nil => simp
  | cons d t ih =>
    rw [List.foldl_cons, ih, sum_bump]
    simp
    ring

lemma sum_new (dice : List DieRoll) :
    (DiceCounts.new dice).sum = (dice.map DieRoll.val).sum := by
  rw [DiceCounts.new, sum_foldl_bump]
  simp [DiceCounts.sum, DIE_ROLLS, DiceCounts.get]

lemma weighted_sum_eq_sum (c : DiceCounts) :
    (DIE_ROLLS.map fun d => c.times_die_values.get d).sum = c.sum := by
  simp [DiceCounts.times_die_values, DiceCounts.sum, DIE_ROLLS, DiceCounts.get, DieRoll.val]

lemma scoreStep_eq (p : Nat × Nat) (vc : ValuedCombination) :
    scoreStep p vc =
      if vc.combination.isUpper then ((p.1 + vc.value) % 65536, p.2)
      else (p.1, (p.2 + vc.value) % 65536) := by
  cases h : vc.combination <;> simp [scoreStep, Combination.isUpper, h]

lemma score_foldl (l : List ValuedCombination) (u v : Nat)
    (h : u + v + (l.map ValuedCombination.value).sum < 65536) :
    l.foldl scoreStep (u, v) =
      (u + ((l.filter fun vc => vc.combination.isUpper).map ValuedCombination.value).sum,
       v + ((l.filter fun vc => !vc.combination.isUpper).map ValuedCombination.value).sum) := by
  induction l generalizing u v with
  | nil => simp
  | cons vc t ih =>
    simp only [List.map_cons, List.sum_cons] at h
    rw [List.foldl_cons, scoreStep_eq]
    by_cases hvc : vc.combination.isUpper = true
    · have hu : (u + vc.value) % 65536 = u + vc.value := Nat.mod_eq_of_lt (by omega)
      rw [if_pos hvc, hu, ih (u + vc.value) v (by omega)]
      simp [List.filter_cons, hvc]
      omega
    · have hv : (v + vc.value) % 65536 = v + vc.value := Nat.mod_eq_of_lt (by omega)
      rw [if_neg hvc, hv, ih u (v + vc.value) (by omega)]
      simp [List.filter_cons, hvc]
      omega

lemma filter_value_sum_add (l : List ValuedCombination) :
    ((l.filter fun vc => vc.combination.isUpper).map ValuedCombination.value).sum +
      ((l.filter fun vc => !vc.combination.isUpper).map ValuedCombination.value).sum =
      (l.map ValuedCombination.value).sum := by
  induction l with
  | nil => simp
  | cons a t ih =>
    by_cases h : a.combination.isUpper = true <;> simp [List.filter_cons, h] <;> omega

lemma record_value_ok (s : PlayerState) (vc : ValuedCombination) (t : PlayerState)
    (h : s.record_value vc = (Except.ok (), t)) :
    s.has_combination vc.combination = false ∧ t = ⟨s.filled ++ [vc]⟩ := by
  by_cases hc : s.has_combination vc.combination
  · simp [PlayerState.record_value, hc] at h
  · simp [PlayerState.record_value, hc] at h
    exact ⟨by simpa using hc, h.symm⟩

lemma has_combination_false_not_mem (s : PlayerState) (c : Combination)
    (h : s.has_combination c = false) :
    c ∉ s.filled.map ValuedCombination.combination := by
  simp only [PlayerState.has_combination, List.any_eq_false, beq_iff_eq] at h
  simp only [List.mem_map, not_exists]
  rintro x ⟨hx, hxc⟩
  exact h x hx hxc

lemma reachable_nodup (s : PlayerState) (h : Reachable s) :
    (s.filled.map ValuedCombination.combination).Nodup := by
  induction h with
  | new => simp [PlayerState.new]
  | record s vc t hr heq ih =>
    obtain ⟨hc, rfl⟩ := record_value_ok s vc t heq
    rw [List.map_append, List.nodup_append]
    refine ⟨ih, by simp, ?_⟩
    intro x hx
    simp only [List.map_cons, List.map_nil, List.mem_singleton]
    rintro rfl
    exact has_combination_false_not_mem s vc.combination hc hx

lemma card_Combination : Fintype.card Combination = 13 := by decide

lemma nodup_filled_length_le (s : PlayerState)
    (h : (s.filled.map ValuedCombination.combination).Nodup) :
    s.filled.length ≤ 13 := by
  have hn := h.length_le_card
  rwa [List.length_map, card_Combination] at hn

lemma reachable_length_le (s : PlayerState) (h : Reachable s) :
    s.filled.length ≤ 13 :=
  nodup_filled_length_le s (reachable_nodup s h)

/-! ## Claim theorems -/

/-- C1: for every tally, the ThreeOfAKind value is `sum()` when some face's
count is at least 3 and 0 otherwise, the FourOfAKind value is `sum()` when
some face's count is at least 4 and 0 otherwise, and the FiveOfAKind value
is 50 when some face's count is at least 5 and 0 otherwise; moreover a hand
of five identical faces satisfies the three-, four- and five-of-a-kind
conditions (the semantics is `count ≥ n`, not `count = n`). -/
theorem tuple_values_spec :
    (∀ c : DiceCounts,
      (PotentialValues.new c).triple =
        (if ∃ d : DieRoll, 3 ≤ c.get d then c.sum else 0) ∧
      (PotentialValues.new c).quadruple =
        (if ∃ d : DieRoll, 4 ≤ c.get d then c.sum else 0) ∧
      (PotentialValues.new c).quintuple =
        (if ∃ d : DieRoll, 5 ≤ c.get d then 50 else 0)) ∧
    (∀ d : DieRoll,
      (DiceCounts.new (List.replicate 5 d)).has_tuple 3 = true ∧
      (DiceCounts.new (List.replicate 5 d)).has_tuple 4 = true ∧
      (DiceCounts.new (List.replicate 5 d)).has_tuple 5 = true) := by
  constructor
  · intro c
    refine ⟨?_, ?_, ?_⟩ <;> simp only [PotentialValues.new, has_tuple_iff]
  · intro d
    cases d <;> exact ⟨by decide, by decide, by decide⟩

/-- C2: for every tally, the FullHouse value is 25 exactly when some face
has count 2 and some face has count 3 simultaneously, and 0 otherwise; in
particular [2,2,3,3,3] scores 25 while [3,3,3,3,3] and [1,1,2,3,4] score 0. -/
theorem fullhouse_value_spec :
    (∀ c : DiceCounts,
      (PotentialValues.new c).full_house =
        (if (∃ d : DieRoll, c.get d = 2) ∧ (∃ d : DieRoll, c.get d = 3)
          then 25 else 0)) ∧
    (PotentialValues.new (DiceCounts.new [.two, .two, .three, .three, .three])).full_house
      = 25 ∧
    (PotentialValues.new (DiceCounts.new [.three, .three, .three, .three, .three])).full_house
      = 0 ∧
    (PotentialValues.new (DiceCounts.new [.one, .one, .two, .three, .four])).full_house
      = 0 := by
  refine ⟨?_, by decide, by decide, by decide⟩
  intro c
  simp only [PotentialValues.new, has_fullhouse_iff]

/-- C3: for every tally, the SmallStraight value is 30 exactly when the
present faces (count > 0) include one of the windows 1-4, 2-5 or 3-6, and
the LargeStraight value is 40 exactly when they include 1-5 or 2-6; each
value is 0 otherwise. -/
theorem straight_values_spec (c : DiceCounts) :
    (PotentialValues.new c).small_straight =
      (if (0 < c.get .one ∧ 0 < c.get .two ∧ 0 < c.get .three ∧ 0 < c.get .four) ∨
          (0 < c.get .two ∧ 0 < c.get .three ∧ 0 < c.get .four ∧ 0 < c.get .five) ∨
          (0 < c.get .three ∧ 0 < c.get .four ∧ 0 < c.get .five ∧ 0 < c.get .six)
        then 30 else 0) ∧
    (PotentialValues.new c).large_straight =
      (if (0 < c.get .one ∧ 0 < c.get .two ∧ 0 < c.get .three ∧ 0 < c.get .four ∧
            0 < c.get .five) ∨
          (0 < c.get .two ∧ 0 < c.get .three ∧ 0 < c.get .four ∧ 0 < c.get .five ∧
            0 < c.get .six)
        then 40 else 0) := by
  constructor
  · simp only [PotentialValues.new, has_small_straight_iff]
  · simp only [PotentialValues.new, has_large_straight_iff]

/-- C8: for every tally, the Chance value equals `sum()`, unconditionally;
in particular the hand [1,1,1,1,1] yields Chance = 5. -/
theorem chance_value_spec :
    (∀ c : DiceCounts, (PotentialValues.new c).chance = c.sum) ∧
    (PotentialValues.new (DiceCounts.new [.one, .one, .one, .one, .one])).chance = 5 := by
  exact ⟨fun c => rfl, by decide⟩

/-- C9: for every hand of five dice, `sum()` of the tally equals the
arithmetic sum of the five face values, and the sum over the six faces of
the weighted per-face values (`times_die_values`) equals `sum()`. -/
theorem tally_sum_spec :
    (∀ dice : List DieRoll, dice.length = 5 →
      (DiceCounts.new dice).sum = (dice.map DieRoll.val).sum) ∧
    (∀ dice : List DieRoll, dice.length = 5 →
      (DIE_ROLLS.map fun d => (DiceCounts.new dice).times_die_values.get d).sum =
        (DiceCounts.new dice).sum) := by
  exact ⟨fun dice _ => sum_new dice, fun dice _ => weighted_sum_eq_sum (DiceCounts.new dice)⟩

/-- C9 witness: both parts at the concrete hand [1,2,3,4,6]. -/
theorem tally_sum_spec_witness :
    handA.length = 5 ∧
    (DiceCounts.new handA).sum = (handA.map DieRoll.val).sum ∧
    (DIE_ROLLS.map fun d => (DiceCounts.new handA).times_die_values.get d).sum =
      (DiceCounts.new handA).sum :=
  ⟨by decide, tally_sum_spec.1 handA (by decide), tally_sum_spec.2 handA (by decide)⟩

/-- C10: for every tally, a large straight implies a small straight, and a
LargeStraight value of 40 implies a SmallStraight value of 30. -/
theorem large_implies_small_straight (c : DiceCounts) :
    (c.has_large_straight = true → c.has_small_straight = true) ∧
    ((PotentialValues.new c).large_straight = 40 →
      (PotentialValues.new c).small_straight = 30) := by
  have himp : c.has_large_straight = true → c.has_small_straight = true := by
    rw [has_large_straight_iff, has_small_straight_iff]
    tauto
  refine ⟨himp, ?_⟩
  intro h40
  by_cases hl : c.has_large_straight = true
  · simp [PotentialValues.new, himp hl]
  · simp [PotentialValues.new, hl] at h40

/-- C10 witness: the implications at the concrete hand [1,2,3,4,5]. -/
theorem large_implies_small_straight_witness :
    (DiceCounts.new [.one, .two, .three, .four, .five]).has_small_straight = true ∧
    (PotentialValues.new (DiceCounts.new [.one, .two, .three, .four, .five])).small_straight
      = 30 :=
  ⟨(large_implies_small_straight (DiceCounts.new [.one, .two, .three, .four, .five])).1
      (by decide),
   (large_implies_small_straight (DiceCounts.new [.one, .two, .three, .four, .five])).2
      (by decide)⟩

/-- C4: for every score card whose recorded values cannot overflow `u16`
(their sum plus the bonus stays below 2^16, true of every value the game
can produce), `score()` returns the sum of the `Upper(_)` values as
`upper`, the sum of the other values as `lower`, a `bonus` of 35 exactly
when `upper` is at least 63, and `total = upper + lower + bonus`. -/
theorem score_totals_spec (s : PlayerState)
    (h : (s.filled.map ValuedCombination.value).sum + 35 < 65536) :
    s.score.upper =
      ((s.filled.filter fun vc => vc.combination.isUpper).map
        ValuedCombination.value).sum ∧
    s.score.lower =
      ((s.filled.filter fun vc => !vc.combination.isUpper).map
        ValuedCombination.value).sum ∧
    s.score.bonus = (if 63 ≤ s.score.upper then 35 else 0) ∧
    s.score.total = s.score.upper + s.score.lower + s.score.bonus := by
  have hf := score_foldl s.filled 0 0 (by omega)
  have hsum := filter_value_sum_add s.filled
  simp only [Nat.zero_add] at hf
  have hupper : s.score.upper =
      ((s.filled.filter fun vc => vc.combination.isUpper).map
        ValuedCombination.value).sum := by
    show (s.filled.foldl scoreStep (0, 0)).1 = _
    rw [hf]
  have hlower : s.score.lower =
      ((s.filled.filter fun vc => !vc.combination.isUpper).map
        ValuedCombination.value).sum := by
    show (s.filled.foldl scoreStep (0, 0)).2 = _
    rw [hf]
  have hbonus : s.score.bonus = (if 63 ≤ s.score.upper then 35 else 0) := rfl
  refine ⟨hupper, hlower, hbonus, ?_⟩
  have hb : s.score.bonus ≤ 35 := by
    rw [hbonus]
    split <;> omega
  have htot : s.score.total = (s.score.upper + s.score.lower + s.score.bonus) % 65536 := rfl
  rw [htot, Nat.mod_eq_of_lt (by omega)]

/-- C4 witness: the score of a concrete card whose upper entries total
exactly 63, so the bonus of 35 is awarded. -/
theorem score_totals_spec_witness :
    (scoreCardA.filled.map ValuedCombination.value).sum + 35 < 65536 ∧
    (scoreCardA.score.upper =
      ((scoreCardA.filled.filter fun vc => vc.combination.isUpper).map
        ValuedCombination.value).sum ∧
    scoreCardA.score.lower =
      ((scoreCardA.filled.filter fun vc => !vc.combination.isUpper).map
        ValuedCombination.value).sum ∧
    scoreCardA.score.bonus = (if 63 ≤ scoreCardA.score.upper then 35 else 0) ∧
    scoreCardA.score.total =
      scoreCardA.score.upper + scoreCardA.score.lower + scoreCardA.score.bonus) :=
  ⟨by decide, score_totals_spec scoreCardA (by decide)⟩

/-- C5: recording fails with the AlreadyRecorded error exactly when the
category is already present (regardless of the value), leaves the card
unchanged on failure, appends exactly the given pair on success, and never
fails on a fresh score card. -/
theorem record_value_spec (s : PlayerState) (vc : ValuedCombination) :
    ((s.record_value vc).1 = Except.error "combination already recorded" ↔
      s.has_combination vc.combination = true) ∧
    (s.has_combination vc.combination = true → (s.record_value vc).2 = s) ∧
    (s.has_combination vc.combination = false →
      s.record_value vc = (Except.ok (), ⟨s.filled ++ [vc]⟩)) ∧
    PlayerState.new.record_value vc = (Except.ok (), ⟨[vc]⟩) := by
  have hnew : PlayerState.new.record_value vc = (Except.ok (), ⟨[vc]⟩) := by
    simp [PlayerState.record_value, PlayerState.has_combination, PlayerState.new]
  refine ⟨?_, ?_, ?_, hnew⟩ <;>
    by_cases h : s.has_combination vc.combination <;>
      simp [PlayerState.record_value, h]

/-- C5 witness: recording Chance a second time fails and leaves the single
recorded entry unchanged. -/
theorem record_value_spec_witness :
    scoreCardB.has_combination Combination.chance = true ∧
    (scoreCardB.record_value ⟨Combination.chance, 7⟩).2 = scoreCardB :=
  ⟨by decide, (record_value_spec scoreCardB ⟨Combination.chance, 7⟩).2.1 (by decide)⟩

/-- C6: for every score card satisfying the no-duplicate-category
invariant, `is_done()` is true exactly when the number of recorded entries
is 13. -/
theorem is_done_spec (s : PlayerState)
    (h : (s.filled.map ValuedCombination.combination).Nodup) :
    s.is_done = true ↔ s.filled.length = 13 := by
  have hle := nodup_filled_length_le s h
  simp only [PlayerState.is_done, DIE_ROLLS, LOWER_COMBINATIONS, List.length_cons,
    List.length_nil, decide_eq_true_eq]
  omega

/-- C6 witness: the full 13-entry card is done. -/
theorem is_done_spec_witness :
    (fullCard.filled.map ValuedCombination.combination).Nodup ∧
    (fullCard.is_done = true ↔ fullCard.filled.length = 13) :=
  ⟨by decide, is_done_spec fullCard (by decide)⟩

/-- C7: every score card reachable from the fresh card by successful
`record_value` calls has pairwise distinct recorded categories, and hence
at most 13 entries. -/
theorem reachable_card_invariant (s : PlayerState) (h : Reachable s) :
    (s.filled.map ValuedCombination.combination).Nodup ∧ s.filled.length ≤ 13 :=
  ⟨reachable_nodup s h, reachable_length_le s h⟩

/-- C7 witness: the invariant at the fresh score card. -/
theorem reachable_card_invariant_witness :
    (PlayerState.new.filled.map ValuedCombination.combination).Nodup ∧
    PlayerState.new.filled.length ≤ 13 :=
  reachable_card_invariant PlayerState.new Reachable.new
